import Mathlib

/-
Verification development for the Gaussian elimination core of the
RPC-gaussian-elimination repository (include/gaussian.hpp).

The embedding models float64 values by exact rationals, machine sizes by
Nat, and the fallible C++ functions (which throw std exceptions) by
Except values over an error taxonomy.  The parallel orchestrator is
modelled by a pure state-passing function that additionally records an
event trace (region mapping, worker spawns, task sends, acknowledgment
waits, exit signals, process reaps, region release), so that claims
about process lifecycle and resource handling become statements about
the trace.  Worker acknowledgment statuses are supplied by an oracle
function so that failure exit paths are representable; the real workers
always acknowledge with status 0, which is the zeroAcks oracle.

Every loop of the source is embedded as structural recursion on the
iteration count so that all definitions evaluate by kernel reduction.
-/

/-- Error taxonomy of the two entry points: invalid_argument thrown by
detail::validate_augmented models InvalidShape, the runtime_error with
message Matrix is singular or ill-conditioned models SingularMatrix, and
the runtime_errors raised on bad worker acknowledgments model
WorkerFailure. -/
inductive GaussError where
  | InvalidShape
  | SingularMatrix
  | WorkerFailure
  deriving DecidableEq

/-- Observable resource and protocol events of gaussian_parallel: mmap of
the shared region, fork of a worker, write of a Work task, blocking read
of an acknowledgment, write of an Exit task, waitpid on a worker, and
munmap of the shared region performed by the SharedMatrixGuard
destructor. -/
inductive Event where
  | MapRegion
  | SpawnWorker (idx : Nat)
  | SendWork (idx col start stop : Nat)
  | AckReceived (idx : Nat)
  | SendExit (idx : Nat)
  | Reap (idx : Nat)
  | ReleaseRegion
  deriving DecidableEq

/-- CppMatrix from include/matrix.hpp: row-major flat buffer with
explicit dimensions. -/
structure CppMatrix where
  rows : Nat
  cols : Nat
  data : List ℚ
  deriving DecidableEq

/-- kEpsilon = 1e-12, the pivot magnitude threshold. -/
def kEpsilon : ℚ := 1 / 1000000000000

/-- kTolerance = 1e-6, the element-wise agreement tolerance used by the
serving layer when comparing the two engines. -/
def kTolerance : ℚ := 1 / 1000000

/-- std::fabs on the rational model of float64. -/
def fabs (q : ℚ) : ℚ := if q < 0 then -q else q

/-- Read entry (r, c) of a row-major buffer of the given width, the
data[r * width + c] access pattern of the source. -/
def matAt (width : Nat) (data : List ℚ) (r c : Nat) : ℚ :=
  data.getD (r * width + c) 0

/-- detail::validate_augmented: at least one row and exactly one more
column than rows, else InvalidShape. -/
def validate_augmented (m : CppMatrix) : Except GaussError Unit :=
  if m.rows = 0 then .error .InvalidShape
  else if m.cols ≠ m.rows + 1 then .error .InvalidShape
  else .ok ()

/-- Inner column loop of one row elimination: for k from the pivot
column to width, data[row][k] -= factor * data[col][k].  The first
argument of the recursion is the number of remaining iterations,
k the current column index. -/
def elim_cols (width row col : Nat) (factor : ℚ) : Nat → Nat → List ℚ → List ℚ
  | 0, _, data => data
  | cnt + 1, k, data =>
      elim_cols width row col factor cnt (k + 1)
        (data.set (row * width + k) (matAt width data row k - factor * matAt width data col k))

/-- One row of forward elimination: factor = data[row][col] / pivot,
then subtract factor times the pivot row over columns col..width.  The
pivot value is the one cached by the caller (once per column in the
sequential engine, once per task in the worker). -/
def elim_row (width col : Nat) (pivot : ℚ) (data : List ℚ) (row : Nat) : List ℚ :=
  elim_cols width row col (matAt width data row col / pivot) (width - col) col data

/-- Row loop of forward elimination: eliminate cnt consecutive rows
starting at the given row index. -/
def eliminate_rows (width col : Nat) (pivot : ℚ) : Nat → Nat → List ℚ → List ℚ
  | 0, _, data => data
  | cnt + 1, row, data =>
      eliminate_rows width col pivot cnt (row + 1) (elim_row width col pivot data row)

/-- Body of a Work task in detail::worker_loop: if start_row < end_row,
read the pivot once and eliminate the rows of [start_row, end_row)
against column col directly on the shared buffer; otherwise do nothing. -/
def run_work (width col s e : Nat) (data : List ℚ) : List ℚ :=
  if s < e then eliminate_rows width col (matAt width data col col) (e - s) s data
  else data

/-- Forward elimination loop of gaussian_sequential: for each pivot
column, check the pivot magnitude against kEpsilon and eliminate every
row below.  The first Nat is the number of remaining columns, the
second the current column index; the top level call uses cnt = n and
col = 0. -/
def forward_elim (width n : Nat) : Nat → Nat → List ℚ → Except GaussError (List ℚ)
  | 0, _, data => .ok data
  | cnt + 1, col, data =>
      let pivot := matAt width data col col
      if fabs pivot < kEpsilon then .error .SingularMatrix
      else forward_elim width n cnt (col + 1)
        (eliminate_rows width col pivot (n - col - 1) (col + 1) data)

/-- Accumulation loop of one back substitution step: subtract
data[i][j] * solution[j] from rhs for j from i+1 to n.  The first Nat is
the number of remaining iterations, the second the current j. -/
def back_rhs (width : Nat) (data sol : List ℚ) (i : Nat) : Nat → Nat → ℚ → ℚ
  | 0, _, rhs => rhs
  | cnt + 1, j, rhs =>
      back_rhs width data sol i cnt (j + 1) (rhs - matAt width data i j * sol.getD j 0)

/-- Back substitution loop: processes rows i = n-1 down to 0, re-checking
each diagonal entry against kEpsilon.  The pattern i+1 processes row i. -/
def back_substitute_loop (width n : Nat) (data : List ℚ) : Nat → List ℚ → Except GaussError (List ℚ)
  | 0, sol => .ok sol
  | i + 1, sol =>
      let rhs := back_rhs width data sol i (n - i - 1) (i + 1) (matAt width data i (width - 1))
      let pivot := matAt width data i i
      if fabs pivot < kEpsilon then .error .SingularMatrix
      else back_substitute_loop width n data i (sol.set i (rhs / pivot))

/-- Back substitution phase shared verbatim by gaussian_sequential and
gaussian_parallel: solution initialized to n zeros, rows processed from
n-1 down to 0. -/
def back_substitute (width n : Nat) (data : List ℚ) : Except GaussError (List ℚ) :=
  back_substitute_loop width n data n (List.replicate n 0)

/-- gaussian_sequential: validate the shape, run forward elimination on a
private copy of the data, then back substitution. -/
def gaussian_sequential (m : CppMatrix) : Except GaussError (List ℚ) :=
  match validate_augmented m with
  | .error e => .error e
  | .ok _ =>
      match forward_elim m.cols m.rows m.rows 0 m.data with
      | .error e => .error e
      | .ok d => back_substitute m.cols m.rows d

/-- detail::WorkerTask: fixed-size message with command (Work = 1,
Exit = 2), pivot column and row range. -/
structure WorkerTask where
  command : Nat
  column : Nat
  start_row : Nat
  end_row : Nat
  deriving DecidableEq

/-- One iteration of the Ready loop of detail::worker_loop after a full
task read: on Exit acknowledge with status 0 and terminate; otherwise
perform the guarded row-range elimination, acknowledge with status 0 and
stay in the Ready state.  Result: new shared buffer, acknowledgment
status, and whether the process exits. -/
def worker_step (width : Nat) (task : WorkerTask) (shared : List ℚ) : List ℚ × Int × Bool :=
  if task.command = 2 then (shared, 0, true)
  else (run_work width task.column task.start_row task.end_row shared, 0, false)

/-- Worker budget of gaussian_parallel: max_processes if positive, else
the sysconf processor count (or 1 when that is not positive), clamped
into [1, n-1]. -/
def process_budget (max_processes : Nat) (cpu : Int) (n : Nat) : Nat :=
  let base := if 0 < max_processes then max_processes
              else if 0 < cpu then cpu.toNat else 1
  max 1 (min base (n - 1))

/-- Row range assignment loop of one column round: for each worker index
until active, start = col + 1 + assigned * chunk, stopping as soon as a
computed start reaches n, with range end min n (start + chunk).  The
first Nat of the recursion is the number of remaining worker slots. -/
def assign_ranges_from (n col chunk : Nat) : Nat → Nat → List (Nat × Nat)
  | 0, _ => []
  | cnt + 1, assigned =>
      let s := col + 1 + assigned * chunk
      if n ≤ s then []
      else (s, min n (s + chunk)) :: assign_ranges_from n col chunk cnt (assigned + 1)

/-- Row ranges assigned to workers 0, 1, ... in one column round. -/
def assign_ranges (n col chunk active : Nat) : List (Nat × Nat) :=
  assign_ranges_from n col chunk active 0

/-- Trace events for the Work task writes of one round, one per assigned
range in worker order. -/
def send_events (col : Nat) : List (Nat × Nat) → Nat → List Event
  | [], _ => []
  | se :: rest, k => .SendWork k col se.1 se.2 :: send_events col rest (k + 1)

/-- Acknowledgment wait loop: waits for cnt acknowledgments from workers
idx, idx+1, ...; each wait consumes one oracle value at the running
counter; a nonzero status aborts the loop (worker reported failure or
broken channel).  Result: events, next counter value, success flag. -/
def ack_loop (acks : Nat → Int) : Nat → Nat → Nat → List Event × Nat × Bool
  | _, _, 0 => ([], 0, true)
  | ctr, idx, cnt + 1 =>
      if acks ctr = 0 then
        let rest := ack_loop acks (ctr + 1) (idx + 1) cnt
        (.AckReceived idx :: rest.1, rest.2.1, rest.2.2)
      else ([.AckReceived idx], ctr + 1, false)

/-- Spawn events for the worker pool. -/
def spawn_events (b : Nat) : List Event := (List.range b).map Event.SpawnWorker

/-- Exit task writes to every spawned worker. -/
def send_exits (b : Nat) : List Event := (List.range b).map Event.SendExit

/-- waitpid events for every spawned worker. -/
def reap_events (b : Nat) : List Event := (List.range b).map Event.Reap

/-- Teardown phase of gaussian_parallel: send Exit to every spawned
worker, wait for one acknowledgment from each, then reap every process.
A bad acknowledgment aborts before the reap loop. -/
def exit_phase (budget : Nat) (acks : Nat → Int) (ctr : Nat) : List Event × Bool :=
  let a := ack_loop acks ctr 0 budget
  if a.2.2 then (send_exits budget ++ a.1 ++ reap_events budget, true)
  else (send_exits budget ++ a.1, false)

/-- Per-column barrier loop of gaussian_parallel.  The first Nat of the
recursion is the number of remaining columns (n - col), then the current
column, the acknowledgment oracle counter, and the shared buffer.
Each round checks the pivot, partitions the remaining rows, performs the
assigned row-range eliminations (race-free because the ranges are
disjoint), and waits for one acknowledgment per task sent.  Result:
outcome, events of the rounds, final oracle counter. -/
def parallel_rounds (width n budget : Nat) (acks : Nat → Int) :
    Nat → Nat → Nat → List ℚ → Except GaussError (List ℚ) × List Event × Nat
  | 0, _, ctr, data => (.ok data, [], ctr)
  | cnt + 1, col, ctr, data =>
      if fabs (matAt width data col col) < kEpsilon then (.error .SingularMatrix, [], ctr)
      else
        let remaining := n - col - 1
        if remaining = 0 then parallel_rounds width n budget acks cnt (col + 1) ctr data
        else
          let active := min budget remaining
          let chunk := (remaining + active - 1) / active
          let ranges := assign_ranges n col chunk active
          let data2 := ranges.foldl (fun d se => run_work width col se.1 se.2 d) data
          let a := ack_loop acks ctr 0 ranges.length
          if a.2.2 then
            let rest := parallel_rounds width n budget acks cnt (col + 1) a.2.1 data2
            (rest.1, send_events col ranges 0 ++ a.1 ++ rest.2.1, rest.2.2)
          else (.error .WorkerFailure, send_events col ranges 0 ++ a.1, a.2.1)

/-- Orchestrator body between mmap and the guard destructor: the column
rounds, then worker teardown, then back substitution against the shared
buffer. -/
def parallel_core (width n budget : Nat) (acks : Nat → Int) (data : List ℚ) :
    Except GaussError (List ℚ) × List Event :=
  let r := parallel_rounds width n budget acks n 0 0 data
  match r.1 with
  | .error e => (.error e, r.2.1)
  | .ok d =>
      let ex := exit_phase budget acks r.2.2
      if ex.2 then (back_substitute width n d, r.2.1 ++ ex.1)
      else (.error .WorkerFailure, r.2.1 ++ ex.1)

/-- gaussian_parallel with its event trace: validate the shape (before
any allocation), delegate to the sequential engine when rows < 2 (no
region, no workers), otherwise map the shared region, spawn the worker
pool and run the orchestrator; the SharedMatrixGuard destructor appends
the unconditional region release on every path that mapped the region.
cpu models the sysconf processor count, acks the acknowledgment statuses
observed on the worker channels. -/
def gaussian_parallel_run (m : CppMatrix) (max_processes : Nat) (cpu : Int)
    (acks : Nat → Int) : Except GaussError (List ℚ) × List Event :=
  match validate_augmented m with
  | .error e => (.error e, [])
  | .ok _ =>
      if m.rows < 2 then (gaussian_sequential m, [])
      else
        let budget := process_budget max_processes cpu m.rows
        let core := parallel_core m.cols m.rows budget acks m.data
        (core.1, Event.MapRegion :: spawn_events budget ++ core.2 ++ [Event.ReleaseRegion])

/-- The acknowledgment oracle realized by the actual workers, which
always acknowledge with status 0. -/
def zeroAcks : Nat → Int := fun _ => 0

/-- gaussian_parallel as a function from matrix to solution, with the
real worker acknowledgments. -/
def gaussian_parallel (m : CppMatrix) (max_processes : Nat) (cpu : Int) :
    Except GaussError (List ℚ) :=
  (gaussian_parallel_run m max_processes cpu zeroAcks).1

/-- Decidable equality of Except values, so that concrete runs of the
engines can be checked by decide. -/
instance {ε α : Type} [DecidableEq ε] [DecidableEq α] : DecidableEq (Except ε α) := fun x y =>
  match x, y with
  | .error a, .error b => decidable_of_iff (a = b) (by simp)
  | .error _, .ok _ => isFalse (by simp)
  | .ok _, .error _ => isFalse (by simp)
  | .ok a, .ok b => decidable_of_iff (a = b) (by simp)

/-- make_predefined_matrix from the client: the 3 x 4 test system. -/
def make_predefined_matrix : CppMatrix :=
  { rows := 3, cols := 4,
    data := [2, 1, -1, 8, -3, -1, 2, -11, -2, 1, 2, -3] }

/-- Expected solution of the predefined test system. -/
def predefined_expected : List ℚ := [2, 3, -1]

/-- A list of row ranges covers the interval of rows from a to b when it
consists of consecutive nonempty half-open intervals that start at a and
end exactly at b. -/
def Covers : Nat → Nat → List (Nat × Nat) → Prop
  | a, b, [] => a = b
  | a, b, se :: rest => se.1 = a ∧ a < se.2 ∧ se.2 ≤ b ∧ Covers se.2 b rest

/-- Recognizer for worker spawn events. -/
def isSpawnEvent : Event → Bool
  | .SpawnWorker _ => true
  | _ => false

/-- Recognizer for the events a column round can emit. -/
def isRoundEvent : Event → Bool
  | .SendWork _ _ _ _ => true
  | .AckReceived _ => true
  | _ => false

/-- Recognizer for the events the teardown phase can emit. -/
def isTeardownEvent : Event → Bool
  | .SendExit _ => true
  | .AckReceived _ => true
  | .Reap _ => true
  | _ => false

attribute [local semireducible] Rat.mul Rat.inv Rat.add Rat.sub

/-- Distinct rows occupy disjoint index sets of the flat row-major
buffer. -/
theorem row_pos_ne (width r k r' c' : Nat) (hk : k < width) (hc : c' < width)
    (hr : r' ≠ r) : r' * width + c' ≠ r * width + k := by
  rcases Nat.lt_or_ge r' r with h | h
  · have h2 : (r' + 1) * width ≤ r * width := Nat.mul_le_mul_right width h
    have h3 : (r' + 1) * width = r' * width + width := Nat.succ_mul r' width
    omega
  · have hlt : r < r' := Nat.lt_of_le_of_ne h fun e => hr e.symm
    have h2 : (r + 1) * width ≤ r' * width := Nat.mul_le_mul_right width hlt
    have h3 : (r + 1) * width = r * width + width := Nat.succ_mul r width
    omega

/-- Writing one buffer position leaves every other position unchanged. -/
theorem matAt_set_ne (width : Nat) (data : List ℚ) (p : Nat) (v : ℚ) (r c : Nat)
    (h : p ≠ r * width + c) : matAt width (data.set p v) r c = matAt width data r c := by
  unfold matAt
  rw [List.getD_eq_getElem?_getD, List.getD_eq_getElem?_getD, List.getElem?_set_ne h]

/-- The inner column loop writes only into its own row. -/
theorem matAt_elim_cols (width row col : Nat) (f : ℚ) :
    ∀ (cnt k : Nat) (data : List ℚ) (r' c' : Nat), k + cnt ≤ width → c' < width → r' ≠ row →
      matAt width (elim_cols width row col f cnt k data) r' c' = matAt width data r' c' := by
  intro cnt
  induction cnt with
  | zero => intro k data r' c' hk hc hr; rfl
  | succ n ih =>
      intro k data r' c' hk hc hr
      simp only [elim_cols]
      rw [ih (k + 1) _ r' c' (by omega) hc hr]
      exact matAt_set_ne width data (row * width + k) _ r' c'
        (Ne.symm (row_pos_ne width row k r' c' (by omega) hc hr))

/-- One row elimination writes only into its own row. -/
theorem matAt_elim_row (width col : Nat) (p : ℚ) (data : List ℚ) (row r' c' : Nat)
    (hcol : col ≤ width) (hc : c' < width) (hr : r' ≠ row) :
    matAt width (elim_row width col p data row) r' c' = matAt width data r' c' :=
  matAt_elim_cols width row col _ (width - col) col data r' c' (by omega) hc hr

/-- The row loop writes only into the rows of its assigned range. -/
theorem matAt_eliminate_rows (width col : Nat) (p : ℚ) (hcol : col ≤ width) :
    ∀ (cnt row : Nat) (data : List ℚ) (r' c' : Nat), c' < width →
      (r' < row ∨ row + cnt ≤ r') →
      matAt width (eliminate_rows width col p cnt row data) r' c' = matAt width data r' c' := by
  intro cnt
  induction cnt with
  | zero => intro row data r' c' hc hr; rfl
  | succ n ih =>
      intro row data r' c' hc hr
      simp only [eliminate_rows]
      rw [ih (row + 1) _ r' c' hc (by omega)]
      exact matAt_elim_row width col p data row r' c' hcol hc (by omega)

/-- Eliminating c1 rows and then the next c2 rows is eliminating c1 + c2
consecutive rows. -/
theorem eliminate_rows_add (width col : Nat) (p : ℚ) :
    ∀ (c1 c2 a : Nat) (data : List ℚ),
      eliminate_rows width col p (c1 + c2) a data
        = eliminate_rows width col p c2 (a + c1) (eliminate_rows width col p c1 a data) := by
  intro c1
  induction c1 with
  | zero => intro c2 a data; simp [eliminate_rows, Nat.zero_add]
  | succ n ih =>
      intro c2 a data
      have h1 : n + 1 + c2 = (n + c2) + 1 := by omega
      rw [h1]
      simp only [eliminate_rows]
      rw [ih c2 (a + 1) (elim_row width col p data a)]
      have h2 : a + 1 + n = a + (n + 1) := by omega
      rw [h2]

/-- Folding the worker task bodies over any covering list of row ranges
performs exactly the sequential row loop over the covered rows: the
ranges are consecutive and disjoint, every range lies strictly below the
pivot row, so each task reads the same pivot value and the same pivot
row, and the chunking cannot change the arithmetic performed on any
row. -/
theorem foldl_run_work (width n col : Nat) (hcw : col < width) :
    ∀ (ranges : List (Nat × Nat)) (a : Nat) (data : List ℚ), col < a → Covers a n ranges →
      ranges.foldl (fun d se => run_work width col se.1 se.2 d) data
        = eliminate_rows width col (matAt width data col col) (n - a) a data := by
  intro ranges
  induction ranges with
  | nil =>
      intro a data ha hc
      have hab : a = n := hc
      subst hab
      simp [eliminate_rows]
  | cons se rest ih =>
      intro a data ha hc
      obtain ⟨s, e⟩ := se
      obtain ⟨h1, h2, h3, h4⟩ := hc
      simp only at h1 h2 h3 h4
      subst h1
      simp only [List.foldl_cons]
      have hrw : run_work width col s e data
          = eliminate_rows width col (matAt width data col col) (e - s) s data := by
        simp [run_work, h2]
      rw [hrw]
      rw [ih e _ (by omega) h4]
      rw [matAt_eliminate_rows width col (matAt width data col col) (by omega) (e - s) s data
        col col hcw (Or.inl (by omega))]
      have hcomb := eliminate_rows_add width col (matAt width data col col) (e - s) (n - e) s data
      rw [show s + (e - s) = e from by omega] at hcomb
      rw [show (e - s) + (n - e) = n - s from by omega] at hcomb
      exact hcomb.symm

/-- The ceiling division chunk covers all remaining rows: active copies
of chunk are at least remaining. -/
theorem chunk_mul_ge (remaining active : Nat) (ha : 0 < active) :
    remaining ≤ ((remaining + active - 1) / active) * active := by
  have h := Nat.div_add_mod (remaining + active - 1) active
  have h2 : (remaining + active - 1) % active < active := Nat.mod_lt _ ha
  have h3 : active * ((remaining + active - 1) / active)
      = ((remaining + active - 1) / active) * active := Nat.mul_comm _ _
  omega

/-- The ceiling division chunk is positive when rows remain. -/
theorem chunk_pos (remaining active : Nat) (hr : 0 < remaining) (ha : 0 < active) :
    0 < (remaining + active - 1) / active := by
  have h : 1 * active ≤ remaining + active - 1 := by omega
  have h2 := (Nat.le_div_iff_mul_le ha).2 h
  omega

/-- When a computed start has reached n, the assignment loop emits
nothing. -/
theorem assign_ranges_from_nil (n col chunk : Nat) (cnt assigned : Nat)
    (h : n ≤ col + 1 + assigned * chunk) :
    assign_ranges_from n col chunk cnt assigned = [] := by
  cases cnt with
  | zero => rfl
  | succ m => simp [assign_ranges_from, h]

/-- The assignment loop produces a covering of the rows from its start
to n whenever enough worker slots remain. -/
theorem assign_ranges_from_covers (n col chunk : Nat) (hchunk : 0 < chunk) :
    ∀ (cnt assigned : Nat),
      col + 1 + assigned * chunk < n →
      n ≤ col + 1 + assigned * chunk + cnt * chunk →
      Covers (col + 1 + assigned * chunk) n (assign_ranges_from n col chunk cnt assigned) := by
  intro cnt
  induction cnt with
  | zero => intro assigned h1 h2; omega
  | succ m ih =>
      intro assigned h1 h2
      have ham : (assigned + 1) * chunk = assigned * chunk + 1 * chunk :=
        Nat.add_mul assigned 1 chunk
      have hmm : (m + 1) * chunk = m * chunk + 1 * chunk := Nat.add_mul m 1 chunk
      simp only [assign_ranges_from, if_neg (by omega : ¬ n ≤ col + 1 + assigned * chunk)]
      rcases Nat.lt_or_ge (col + 1 + assigned * chunk + chunk) n with hlt | hge
      · have hmin : min n (col + 1 + assigned * chunk + chunk)
            = col + 1 + assigned * chunk + chunk := Nat.min_eq_right (by omega)
        rw [hmin]
        refine ⟨rfl, by omega, by omega, ?_⟩
        have hnext : col + 1 + (assigned + 1) * chunk = col + 1 + assigned * chunk + chunk := by
          omega
        rw [← hnext]
        exact ih (assigned + 1) (by omega) (by omega)
      · have hmin : min n (col + 1 + assigned * chunk + chunk) = n :=
          Nat.min_eq_left hge
        rw [hmin]
        refine ⟨rfl, by omega, Nat.le_refl n, ?_⟩
        rw [assign_ranges_from_nil n col chunk m (assigned + 1) (by omega)]
        rfl

/-- The ranges of one column round cover exactly the rows strictly below
the pivot row. -/
theorem assign_ranges_covers (n col budget : Nat) (hb : 0 < budget) (hrem : col + 1 < n) :
    Covers (col + 1) n
      (assign_ranges n col ((n - col - 1 + min budget (n - col - 1) - 1) / min budget (n - col - 1))
        (min budget (n - col - 1))) := by
  have hact : 0 < min budget (n - col - 1) := Nat.lt_min.2 ⟨hb, by omega⟩
  have hchunk : 0 < (n - col - 1 + min budget (n - col - 1) - 1) / min budget (n - col - 1) :=
    chunk_pos _ _ (by omega) hact
  have hmul := chunk_mul_ge (n - col - 1) (min budget (n - col - 1)) hact
  have hcov := assign_ranges_from_covers n col _ hchunk (min budget (n - col - 1)) 0
  simp only [Nat.zero_mul, Nat.add_zero] at hcov
  have hcomm : min budget (n - col - 1)
        * ((n - col - 1 + min budget (n - col - 1) - 1) / min budget (n - col - 1))
      = ((n - col - 1 + min budget (n - col - 1) - 1) / min budget (n - col - 1))
        * min budget (n - col - 1) := Nat.mul_comm _ _
  exact hcov hrem (by omega)

/-- With the acknowledgment statuses the real workers produce, every
acknowledgment wait succeeds. -/
theorem ack_loop_zero : ∀ (cnt ctr idx : Nat), (ack_loop zeroAcks ctr idx cnt).2.2 = true := by
  intro cnt
  induction cnt with
  | zero => intro ctr idx; rfl
  | succ m ih =>
      intro ctr idx
      simp only [ack_loop, zeroAcks, if_pos rfl]
      exact ih (ctr + 1) (idx + 1)

/-- With the acknowledgment statuses the real workers produce, the
teardown phase succeeds. -/
theorem exit_phase_zero (budget ctr : Nat) : (exit_phase budget zeroAcks ctr).2 = true := by
  simp [exit_phase, ack_loop_zero]

/-- A successful shape validation means nonzero rows and exactly one
more column than rows. -/
theorem validate_augmented_ok (m : CppMatrix) (u : Unit)
    (h : validate_augmented m = .ok u) : m.rows ≠ 0 ∧ m.cols = m.rows + 1 := by
  unfold validate_augmented at h
  by_cases hz : m.rows = 0
  · simp [hz] at h
  · by_cases hc : m.cols = m.rows + 1
    · exact ⟨hz, hc⟩
    · simp [hz, hc] at h

/-- The worker budget is always at least one. -/
theorem process_budget_pos (w : Nat) (cpu : Int) (n : Nat) : 0 < process_budget w cpu n :=
  Nat.lt_of_lt_of_le Nat.zero_lt_one (Nat.le_max_left 1 _)

/-- With the real acknowledgment statuses, the outcome of the column
rounds of the parallel orchestrator is exactly the outcome of the
sequential forward elimination: each round applies the same pivot check
and, through the covering row ranges, the same row eliminations. -/
theorem rounds_fst_eq_forward (width n budget : Nat) (hb : 0 < budget) (hw : n < width) :
    ∀ (cnt col ctr : Nat) (data : List ℚ), col + cnt = n →
      (parallel_rounds width n budget zeroAcks cnt col ctr data).1
        = forward_elim width n cnt col data := by
  intro cnt
  induction cnt with
  | zero => intro col ctr data h; rfl
  | succ m ih =>
      intro col ctr data h
      simp only [parallel_rounds, forward_elim]
      by_cases hp : fabs (matAt width data col col) < kEpsilon
      · simp [hp]
      · simp only [if_neg hp]
        by_cases hrem : n - col - 1 = 0
        · simp only [if_pos hrem, hrem, eliminate_rows]
          exact ih (col + 1) ctr data (by omega)
        · simp only [if_neg hrem]
          have hcoln : col + 1 < n := by omega
          have hcov := assign_ranges_covers n col budget hb hcoln
          have hfold := foldl_run_work width n col (by omega)
            (assign_ranges n col
              ((n - col - 1 + min budget (n - col - 1) - 1) / min budget (n - col - 1))
              (min budget (n - col - 1)))
            (col + 1) data (by omega) hcov
          rw [hfold, ack_loop_zero]
          simp only [if_pos]
          rw [ih (col + 1) _ _ (by omega)]
          rw [Nat.sub_sub]

/-- With the real acknowledgment statuses the orchestrator body computes
forward elimination followed by back substitution. -/
theorem parallel_core_fst (width n budget : Nat) (hb : 0 < budget) (hw : n < width)
    (data : List ℚ) :
    (parallel_core width n budget zeroAcks data).1
      = match forward_elim width n n 0 data with
        | .error e => .error e
        | .ok d => back_substitute width n d := by
  unfold parallel_core
  dsimp only
  rw [rounds_fst_eq_forward width n budget hb hw n 0 0 data (by omega)]
  cases hf : forward_elim width n n 0 data with
  | error e => simp
  | ok d => simp [exit_phase_zero]

/-- Full refinement: gaussian_parallel computes exactly the same result
as gaussian_sequential on every input, every worker budget and every
processor count. -/
theorem gaussian_parallel_eq_sequential (m : CppMatrix) (w : Nat) (cpu : Int) :
    gaussian_parallel m w cpu = gaussian_sequential m := by
  unfold gaussian_parallel gaussian_parallel_run
  cases hv : validate_augmented m with
  | error e => simp [gaussian_sequential, hv]
  | ok u =>
      obtain ⟨hz, hc⟩ := validate_augmented_ok m u hv
      by_cases h2 : m.rows < 2
      · simp [h2]
      · simp only [if_neg h2]
        rw [parallel_core_fst m.cols m.rows (process_budget w cpu m.rows)
          (process_budget_pos w cpu m.rows) (by omega) m.data]
        simp [gaussian_sequential, hv]

/-- The back substitution loop only overwrites entries of the solution
vector, so its length is preserved. -/
theorem back_substitute_loop_length (width n : Nat) (data : List ℚ) :
    ∀ (i : Nat) (sol sol' : List ℚ), back_substitute_loop width n data i sol = .ok sol' →
      sol'.length = sol.length := by
  intro i
  induction i with
  | zero => intro sol sol' h; cases h; rfl
  | succ m ih =>
      intro sol sol' h
      simp only [back_substitute_loop] at h
      by_cases hp : fabs (matAt width data m m) < kEpsilon
      · simp [hp] at h
      · rw [if_neg hp] at h
        have h2 := ih _ _ h
        simpa [List.length_set] using h2

/-- A successful sequential solve returns one unknown per row. -/
theorem seq_ok_length (m : CppMatrix) (xs : List ℚ)
    (h : gaussian_sequential m = .ok xs) : xs.length = m.rows := by
  unfold gaussian_sequential at h
  cases hv : validate_augmented m with
  | error e => rw [hv] at h; cases h
  | ok u =>
      rw [hv] at h
      cases hf : forward_elim m.cols m.rows m.rows 0 m.data with
      | error e => rw [hf] at h; cases h
      | ok d =>
          rw [hf] at h
          unfold back_substitute at h
          have h2 := back_substitute_loop_length m.cols m.rows d m.rows _ _ h
          simpa using h2

/-- Shape validation fails with InvalidShape on every malformed shape. -/
theorem validate_augmented_invalid (m : CppMatrix) (h : m.rows = 0 ∨ m.cols ≠ m.rows + 1) :
    validate_augmented m = .error .InvalidShape := by
  unfold validate_augmented
  rcases h with h | h
  · simp [h]
  · rcases eq_or_ne m.rows 0 with hz | hz <;> simp [hz, h]

/-- When rows < 2 the parallel entry point delegates to the sequential
engine with an empty event trace: no region, no workers. -/
theorem parallel_run_delegates (m : CppMatrix) (w : Nat) (cpu : Int) (acks : Nat → Int)
    (h1 : m.rows ≠ 0) (h2 : m.rows < 2) (h3 : m.cols = m.rows + 1) :
    gaussian_parallel_run m w cpu acks = (gaussian_sequential m, []) := by
  unfold gaussian_parallel_run
  simp [validate_augmented, h1, h3, h2]

/-- Back substitution succeeds when every diagonal entry clears the
pivot threshold. -/
theorem back_substitute_loop_ok (width n : Nat) (data : List ℚ)
    (hdiag : ∀ i, i < n → kEpsilon ≤ fabs (matAt width data i i)) :
    ∀ (i : Nat), i ≤ n → ∀ (sol : List ℚ),
      ∃ sol', back_substitute_loop width n data i sol = .ok sol' := by
  intro i
  induction i with
  | zero => intro hle sol; exact ⟨sol, rfl⟩
  | succ m ih =>
      intro hle sol
      simp only [back_substitute_loop]
      rw [if_neg (not_lt.2 (hdiag m (by omega)))]
      exact ih (by omega) _

/-- Back substitution succeeds on a buffer whose diagonal cleared every
forward pivot check. -/
theorem back_substitute_ok (width n : Nat) (data : List ℚ)
    (hdiag : ∀ i, i < n → kEpsilon ≤ fabs (matAt width data i i)) :
    ∃ sol, back_substitute width n data = .ok sol :=
  back_substitute_loop_ok width n data hdiag n (Nat.le_refl n) _

/-- Every range the assignment loop emits starts strictly below no row
above the pivot: starts are at least col + 1. -/
theorem assign_ranges_from_start_ge (n col chunk : Nat) :
    ∀ (cnt assigned : Nat) (se : Nat × Nat), se ∈ assign_ranges_from n col chunk cnt assigned →
      col + 1 ≤ se.1 := by
  intro cnt
  induction cnt with
  | zero => intro assigned se h; cases h
  | succ m ih =>
      intro assigned se h
      simp only [assign_ranges_from] at h
      by_cases hs : n ≤ col + 1 + assigned * chunk
      · rw [if_pos hs] at h; cases h
      · rw [if_neg hs] at h
        rcases List.mem_cons.1 h with rfl | h2
        · simp
        · exact ih (assigned + 1) se h2

/-- If every pivot check of the column rounds passed and the rounds
returned a buffer, then every diagonal entry of that buffer still clears
the pivot threshold: a round for column col writes only rows strictly
below col, so each checked pivot value is frozen for the rest of the
computation. -/
theorem rounds_ok_diag (width n budget : Nat) (acks : Nat → Int) (hb : 0 < budget)
    (hw : n < width) :
    ∀ (cnt col ctr : Nat) (data : List ℚ), col + cnt = n →
      (∀ i, i < col → kEpsilon ≤ fabs (matAt width data i i)) →
      ∀ d, (parallel_rounds width n budget acks cnt col ctr data).1 = .ok d →
      ∀ i, i < n → kEpsilon ≤ fabs (matAt width d i i) := by
  intro cnt
  induction cnt with
  | zero =>
      intro col ctr data hcol hinv d h i hi
      cases h
      exact hinv i (by omega)
  | succ m ih =>
      intro col ctr data hcol hinv d h i hi
      simp only [parallel_rounds] at h
      by_cases hp : fabs (matAt width data col col) < kEpsilon
      · rw [if_pos hp] at h; cases h
      · rw [if_neg hp] at h
        have hinv2 : ∀ j, j < col + 1 → kEpsilon ≤ fabs (matAt width data j j) := by
          intro j hj
          rcases Nat.lt_or_ge j col with hlt | hge
          · exact hinv j hlt
          · have hj2 : j = col := by omega
            subst hj2
            exact not_lt.1 hp
        by_cases hrem : n - col - 1 = 0
        · rw [if_pos hrem] at h
          exact ih (col + 1) ctr data (by omega) hinv2 d h i hi
        · rw [if_neg hrem] at h
          by_cases hack : (ack_loop acks ctr 0
              (assign_ranges n col
                ((n - col - 1 + min budget (n - col - 1) - 1) / min budget (n - col - 1))
                (min budget (n - col - 1))).length).2.2 = true
          · rw [if_pos hack] at h
            dsimp only at h
            have hcoln : col + 1 < n := by omega
            have hcov := assign_ranges_covers n col budget hb hcoln
            have hfold := foldl_run_work width n col (by omega)
              (assign_ranges n col
                ((n - col - 1 + min budget (n - col - 1) - 1) / min budget (n - col - 1))
                (min budget (n - col - 1)))
              (col + 1) data (by omega) hcov
            rw [hfold] at h
            refine ih (col + 1) _ _ (by omega) ?_ d h i hi
            intro j hj
            rw [matAt_eliminate_rows width col (matAt width data col col) (by omega)
              (n - (col + 1)) (col + 1) data j j (by omega) (Or.inl (by omega))]
            exact hinv2 j hj
          · rw [if_neg hack] at h
            cases h

/-- Spawn events are spawn events. -/
theorem mem_spawn_events (b : Nat) (e : Event) (h : e ∈ spawn_events b) :
    isSpawnEvent e = true := by
  unfold spawn_events at h
  obtain ⟨i, hi, rfl⟩ := List.mem_map.1 h
  rfl

/-- Exit signal events belong to the teardown phase. -/
theorem mem_send_exits (b : Nat) (e : Event) (h : e ∈ send_exits b) :
    isTeardownEvent e = true := by
  unfold send_exits at h
  obtain ⟨i, hi, rfl⟩ := List.mem_map.1 h
  rfl

/-- Reap events belong to the teardown phase. -/
theorem mem_reap_events (b : Nat) (e : Event) (h : e ∈ reap_events b) :
    isTeardownEvent e = true := by
  unfold reap_events at h
  obtain ⟨i, hi, rfl⟩ := List.mem_map.1 h
  rfl

/-- The acknowledgment loop only records acknowledgment events. -/
theorem ack_loop_events (acks : Nat → Int) :
    ∀ (cnt ctr idx : Nat) (e : Event), e ∈ (ack_loop acks ctr idx cnt).1 →
      ∃ i, e = .AckReceived i := by
  intro cnt
  induction cnt with
  | zero => intro ctr idx e h; cases h
  | succ m ih =>
      intro ctr idx e h
      simp only [ack_loop] at h
      by_cases ha : acks ctr = 0
      · rw [if_pos ha] at h
        rcases List.mem_cons.1 h with rfl | h2
        · exact ⟨idx, rfl⟩
        · exact ih (ctr + 1) (idx + 1) e h2
      · rw [if_neg ha] at h
        rcases List.mem_cons.1 h with rfl | h2
        · exact ⟨idx, rfl⟩
        · cases h2

/-- Task send events of one round are work sends for that column. -/
theorem send_events_shape (col : Nat) :
    ∀ (ranges : List (Nat × Nat)) (k : Nat) (e : Event), e ∈ send_events col ranges k →
      ∃ i s t, e = .SendWork i col s t := by
  intro ranges
  induction ranges with
  | nil => intro k e h; cases h
  | cons se rest ih =>
      intro k e h
      simp only [send_events] at h
      rcases List.mem_cons.1 h with rfl | h2
      · exact ⟨k, se.1, se.2, rfl⟩
      · exact ih (k + 1) e h2

/-- The events of the teardown phase are teardown events. -/
theorem mem_exit_phase (budget : Nat) (acks : Nat → Int) (ctr : Nat) (e : Event)
    (h : e ∈ (exit_phase budget acks ctr).1) : isTeardownEvent e = true := by
  unfold exit_phase at h
  by_cases hb : (ack_loop acks ctr 0 budget).2.2 = true
  · rw [if_pos hb] at h
    rcases List.mem_append.1 h with h2 | h2
    · rcases List.mem_append.1 h2 with h3 | h3
      · exact mem_send_exits _ _ h3
      · obtain ⟨i, rfl⟩ := ack_loop_events acks budget ctr 0 e h3
        rfl
    · exact mem_reap_events _ _ h2
  · rw [if_neg hb] at h
    rcases List.mem_append.1 h with h2 | h2
    · exact mem_send_exits _ _ h2
    · obtain ⟨i, rfl⟩ := ack_loop_events acks budget ctr 0 e h2
      rfl

/-- The events recorded by the column rounds are round events: work
sends and acknowledgment waits only, never exit signals, reaps or
spawns. -/
theorem parallel_rounds_events (width n budget : Nat) (acks : Nat → Int) :
    ∀ (cnt col ctr : Nat) (data : List ℚ) (e : Event),
      e ∈ (parallel_rounds width n budget acks cnt col ctr data).2.1 →
      isRoundEvent e = true := by
  intro cnt
  induction cnt with
  | zero => intro col ctr data e h; cases h
  | succ m ih =>
      intro col ctr data e h
      simp only [parallel_rounds] at h
      by_cases hp : fabs (matAt width data col col) < kEpsilon
      · rw [if_pos hp] at h; cases h
      · rw [if_neg hp] at h
        by_cases hrem : n - col - 1 = 0
        · rw [if_pos hrem] at h
          exact ih (col + 1) ctr data e h
        · rw [if_neg hrem] at h
          set A := assign_ranges n col
            ((n - col - 1 + min budget (n - col - 1) - 1) / min budget (n - col - 1))
            (min budget (n - col - 1)) with hA
          by_cases hack : (ack_loop acks ctr 0 A.length).2.2 = true
          · rw [if_pos hack] at h
            dsimp only at h
            rcases List.mem_append.1 h with h2 | h2
            · rcases List.mem_append.1 h2 with h3 | h3
              · obtain ⟨i, s, t, rfl⟩ := send_events_shape col A 0 e h3
                rfl
              · obtain ⟨i, rfl⟩ := ack_loop_events acks A.length ctr 0 e h3
                rfl
            · exact ih (col + 1) _ _ e h2
          · rw [if_neg hack] at h
            dsimp only at h
            rcases List.mem_append.1 h with h2 | h2
            · obtain ⟨i, s, t, rfl⟩ := send_events_shape col A 0 e h2
              rfl
            · obtain ⟨i, rfl⟩ := ack_loop_events acks A.length ctr 0 e h2
              rfl

/-- If the column rounds fail, the orchestrator body propagates that
error with only the round events recorded: the teardown phase never
runs. -/
theorem parallel_core_of_rounds_error (width n budget : Nat) (acks : Nat → Int)
    (data : List ℚ) (e : GaussError)
    (h : (parallel_rounds width n budget acks n 0 0 data).1 = .error e) :
    parallel_core width n budget acks data
      = (.error e, (parallel_rounds width n budget acks n 0 0 data).2.1) := by
  unfold parallel_core
  dsimp only
  rw [h]

/-- If the column rounds succeed, the outcome of the orchestrator body
is back substitution when teardown succeeds, and WorkerFailure
otherwise. -/
theorem parallel_core_fst_of_rounds_ok (width n budget : Nat) (acks : Nat → Int)
    (data d : List ℚ)
    (h : (parallel_rounds width n budget acks n 0 0 data).1 = .ok d) :
    (parallel_core width n budget acks data).1
      = if (exit_phase budget acks (parallel_rounds width n budget acks n 0 0 data).2.2).2 = true
        then back_substitute width n d
        else .error .WorkerFailure := by
  unfold parallel_core
  dsimp only
  rw [h]
  dsimp only
  by_cases hx : (exit_phase budget acks
      (parallel_rounds width n budget acks n 0 0 data).2.2).2 = true
  · simp only [if_pos hx]
  · simp only [if_neg hx]

/-- Every event of the orchestrator body is a round event or a teardown
event: in particular the body never spawns workers and never maps or
releases the region. -/
theorem parallel_core_events (width n budget : Nat) (acks : Nat → Int) (data : List ℚ)
    (e : Event) (he : e ∈ (parallel_core width n budget acks data).2) :
    isRoundEvent e = true ∨ isTeardownEvent e = true := by
  unfold parallel_core at he
  dsimp only at he
  cases hrr : (parallel_rounds width n budget acks n 0 0 data).1 with
  | error err =>
      rw [hrr] at he
      exact Or.inl (parallel_rounds_events width n budget acks n 0 0 data e he)
  | ok d =>
      rw [hrr] at he
      dsimp only at he
      by_cases hx : (exit_phase budget acks
          (parallel_rounds width n budget acks n 0 0 data).2.2).2 = true
      · rw [if_pos hx] at he
        dsimp only at he
        rcases List.mem_append.1 he with h2 | h2
        · exact Or.inl (parallel_rounds_events width n budget acks n 0 0 data e h2)
        · exact Or.inr (mem_exit_phase _ _ _ e h2)
      · rw [if_neg hx] at he
        dsimp only at he
        rcases List.mem_append.1 he with h2 | h2
        · exact Or.inl (parallel_rounds_events width n budget acks n 0 0 data e h2)
        · exact Or.inr (mem_exit_phase _ _ _ e h2)

/-- A failed shape validation always reports InvalidShape. -/
theorem validate_augmented_error (m : CppMatrix) (e : GaussError)
    (h : validate_augmented m = .error e) : e = .InvalidShape := by
  unfold validate_augmented at h
  by_cases hz : m.rows = 0
  · simp [hz] at h
    exact h.symm
  · by_cases hc : m.cols = m.rows + 1
    · simp [hz, hc] at h
    · simp [hz, hc] at h
      exact h.symm

/-- The trace of a run that mapped the region ends with the guard
release. -/
theorem trace_getLast (b : Nat) (ev : List Event) :
    (Event.MapRegion :: spawn_events b ++ ev ++ [Event.ReleaseRegion]).getLast?
      = some Event.ReleaseRegion := by
  rw [show Event.MapRegion :: spawn_events b ++ ev ++ [Event.ReleaseRegion]
      = (Event.MapRegion :: (spawn_events b ++ ev)) ++ [Event.ReleaseRegion] from by simp]
  exact List.getLast?_concat _

/-- C1: for every augmented matrix with rows at least 1 and cols equal
to rows + 1 on which the sequential engine succeeds (equivalently, every
pivot encountered during forward elimination and back substitution
clears the 1e-12 threshold, since those checks are its only failure
modes after validation), gaussian_parallel succeeds as well for every
max_workers value from 1 to rows - 1 and for the default 0, and the two
solution vectors have length rows and agree element-wise within 1e-6;
in the exact-arithmetic model they are identical. -/
theorem claim_C1 (m : CppMatrix) (w : Nat) (cpu : Int) (xs : List ℚ)
    (hr : 1 ≤ m.rows) (hc : m.cols = m.rows + 1)
    (hw : w = 0 ∨ (1 ≤ w ∧ w + 1 ≤ m.rows))
    (hseq : gaussian_sequential m = .ok xs) :
    xs.length = m.rows ∧
      ∃ ys, gaussian_parallel m w cpu = .ok ys ∧ ys.length = m.rows ∧
        ∀ i, i < m.rows → fabs (xs.getD i 0 - ys.getD i 0) ≤ kTolerance := by
  refine ⟨seq_ok_length m xs hseq, xs, ?_, seq_ok_length m xs hseq, ?_⟩
  · rw [gaussian_parallel_eq_sequential m w cpu]
    exact hseq
  · intro i hi
    simp only [sub_self]
    decide

/-- Witness for C1 at a concrete well-conditioned 2 x 3 system with
max_workers 1. -/
theorem claim_C1_witness :
    gaussian_sequential ⟨2, 3, [2, 0, 4, 0, 2, 6]⟩ = .ok [2, 3] ∧
      (([2, 3] : List ℚ).length = 2 ∧
        ∃ ys, gaussian_parallel ⟨2, 3, [2, 0, 4, 0, 2, 6]⟩ 1 1 = .ok ys ∧ ys.length = 2 ∧
          ∀ i, i < 2 → fabs (([2, 3] : List ℚ).getD i 0 - ys.getD i 0) ≤ kTolerance) :=
  ⟨by decide, claim_C1 ⟨2, 3, [2, 0, 4, 0, 2, 6]⟩ 1 1 [2, 3] (by decide) (by decide)
    (Or.inr (by decide)) (by decide)⟩

/-- C2 counterexample: on a 2 x 3 system whose leading pivot is exactly
zero, gaussian_parallel fails with SingularMatrix but the recorded trace
holds no exit signal and no reap for the one spawned worker: the claim
that the error is propagated only after signaling every worker to exit
and reaping all handles is false on this input. -/
theorem claim_C2_counterexample :
    gaussian_parallel_run ⟨2, 3, [0, 1, 2, 1, 1, 3]⟩ 1 1 zeroAcks
        = (.error .SingularMatrix, [.MapRegion, .SpawnWorker 0, .ReleaseRegion]) ∧
      Event.SendExit 0 ∉ [Event.MapRegion, Event.SpawnWorker 0, Event.ReleaseRegion] ∧
      Event.Reap 0 ∉ [Event.MapRegion, Event.SpawnWorker 0, Event.ReleaseRegion] :=
  ⟨by decide, by decide, by decide⟩

/-- C2 amended: when gaussian_parallel reads a pivot below 1e-12 during
forward elimination on a system with at least two rows, it fails with
SingularMatrix immediately: the error is propagated without signaling
any worker to exit and without reaping any worker process handle; the
shared region alone is released, by the guard, as the final action of
the call. -/
theorem claim_C2_amended (m : CppMatrix) (w : Nat) (cpu : Int) (acks : Nat → Int)
    (tr : List Event) (h2 : 2 ≤ m.rows)
    (hrun : gaussian_parallel_run m w cpu acks = (.error .SingularMatrix, tr)) :
    (∀ i, Event.SendExit i ∉ tr) ∧ (∀ i, Event.Reap i ∉ tr) ∧
      Event.MapRegion ∈ tr ∧ tr.getLast? = some .ReleaseRegion := by
  unfold gaussian_parallel_run at hrun
  cases hv : validate_augmented m with
  | error e =>
      rw [hv] at hrun
      have he := validate_augmented_error m e hv
      subst he
      cases hrun
  | ok u =>
      obtain ⟨hz, hc⟩ := validate_augmented_ok m u hv
      rw [hv] at hrun
      rw [if_neg (by omega : ¬ m.rows < 2)] at hrun
      dsimp only at hrun
      have h1 : (parallel_core m.cols m.rows (process_budget w cpu m.rows) acks m.data).1
          = .error .SingularMatrix := congrArg Prod.fst hrun
      have htr : tr = Event.MapRegion
          :: spawn_events (process_budget w cpu m.rows)
          ++ (parallel_core m.cols m.rows (process_budget w cpu m.rows) acks m.data).2
          ++ [Event.ReleaseRegion] := (congrArg Prod.snd hrun).symm
      cases hrr : (parallel_rounds m.cols m.rows (process_budget w cpu m.rows) acks
          m.rows 0 0 m.data).1 with
      | ok d =>
          exfalso
          rw [parallel_core_fst_of_rounds_ok m.cols m.rows (process_budget w cpu m.rows)
            acks m.data d hrr] at h1
          have hdiag := rounds_ok_diag m.cols m.rows (process_budget w cpu m.rows) acks
            (process_budget_pos w cpu m.rows) (by omega) m.rows 0 0 m.data (by omega)
            (by intro i hi; omega) d hrr
          obtain ⟨sol, hsol⟩ := back_substitute_ok m.cols m.rows d hdiag
          by_cases hx : (exit_phase (process_budget w cpu m.rows) acks
              (parallel_rounds m.cols m.rows (process_budget w cpu m.rows) acks
                m.rows 0 0 m.data).2.2).2 = true
          · rw [if_pos hx, hsol] at h1
            cases h1
          · rw [if_neg hx] at h1
            cases h1
      | error err =>
          have hcore := parallel_core_of_rounds_error m.cols m.rows
            (process_budget w cpu m.rows) acks m.data err hrr
          rw [hcore] at htr h1
          refine ⟨?_, ?_, ?_, ?_⟩
          · intro i hmem
            rw [htr] at hmem
            simp only [List.cons_append, List.mem_cons, List.mem_append] at hmem
            rcases hmem with h3 | h3
            · cases h3
            · rcases h3 with h3 | h3
              · rcases h3 with h3 | h3
                · have := mem_spawn_events _ _ h3
                  simp [isSpawnEvent] at this
                · have := parallel_rounds_events m.cols m.rows
                    (process_budget w cpu m.rows) acks m.rows 0 0 m.data _ h3
                  simp [isRoundEvent] at this
              · simp at h3
          · intro i hmem
            rw [htr] at hmem
            simp only [List.cons_append, List.mem_cons, List.mem_append] at hmem
            rcases hmem with h3 | h3
            · cases h3
            · rcases h3 with h3 | h3
              · rcases h3 with h3 | h3
                · have := mem_spawn_events _ _ h3
                  simp [isSpawnEvent] at this
                · have := parallel_rounds_events m.cols m.rows
                    (process_budget w cpu m.rows) acks m.rows 0 0 m.data _ h3
                  simp [isRoundEvent] at this
              · simp at h3
          · rw [htr]
            exact List.mem_cons_self _ _
          · rw [htr]
            exact trace_getLast _ _

/-- Witness for the amended C2 at the concrete singular system. -/
theorem claim_C2_amended_witness :
    (∀ i, Event.SendExit i ∉ [Event.MapRegion, Event.SpawnWorker 0, Event.ReleaseRegion]) ∧
      (∀ i, Event.Reap i ∉ [Event.MapRegion, Event.SpawnWorker 0, Event.ReleaseRegion]) ∧
      Event.MapRegion ∈ [Event.MapRegion, Event.SpawnWorker 0, Event.ReleaseRegion] ∧
      ([Event.MapRegion, Event.SpawnWorker 0,
        Event.ReleaseRegion] : List Event).getLast? = some .ReleaseRegion :=
  claim_C2_amended ⟨2, 3, [0, 1, 2, 1, 1, 3]⟩ 1 1 zeroAcks
    [Event.MapRegion, Event.SpawnWorker 0, Event.ReleaseRegion] (by decide) (by decide)

/-- Every range of a covering starts at or after the covered start,
is nonempty, and ends at or before the covered end. -/
theorem covers_mem : ∀ (l : List (Nat × Nat)) (a b : Nat), Covers a b l →
    ∀ se ∈ l, a ≤ se.1 ∧ se.1 < se.2 ∧ se.2 ≤ b := by
  intro l
  induction l with
  | nil => intro a b hc se h; cases h
  | cons x rest ih =>
      intro a b hc se h
      obtain ⟨h1, h2, h3, h4⟩ := hc
      rcases List.mem_cons.1 h with rfl | h5
      · exact ⟨by omega, by omega, h3⟩
      · have h6 := ih x.2 b h4 se h5
        exact ⟨by omega, h6.2.1, h6.2.2⟩

/-- In a covering, an earlier range ends no later than a later range
starts. -/
theorem covers_chain : ∀ (l : List (Nat × Nat)) (a b : Nat), Covers a b l →
    ∀ (i j : Nat) (hi : i < l.length) (hj : j < l.length), i < j →
      (l.get ⟨i, hi⟩).2 ≤ (l.get ⟨j, hj⟩).1 := by
  intro l
  induction l with
  | nil => intro a b hc i j hi hj hij; exact absurd hi (by simp)
  | cons x rest ih =>
      intro a b hc i j hi hj hij
      obtain ⟨h1, h2, h3, h4⟩ := hc
      cases i with
      | zero =>
          cases j with
          | zero => omega
          | succ j2 =>
              have hj2 : j2 < rest.length := by simpa using hj
              have hm := covers_mem rest x.2 b h4 (rest.get ⟨j2, hj2⟩)
                (List.get_mem rest j2 hj2)
              simpa using hm.1
      | succ i2 =>
          cases j with
          | zero => omega
          | succ j2 =>
              have hi2 : i2 < rest.length := by simpa using hi
              have hj2 : j2 < rest.length := by simpa using hj
              simpa using ih x.2 b h4 i2 j2 hi2 hj2 (by omega)

/-- The union of a covering is exactly the covered interval. -/
theorem covers_union : ∀ (l : List (Nat × Nat)) (a b : Nat), Covers a b l →
    ∀ r, (∃ se, se ∈ l ∧ se.1 ≤ r ∧ r < se.2) ↔ (a ≤ r ∧ r < b) := by
  intro l
  induction l with
  | nil =>
      intro a b hc r
      have hab : a = b := hc
      subst hab
      constructor
      · rintro ⟨se, h, _⟩; cases h
      · intro h; omega
  | cons x rest ih =>
      intro a b hc r
      obtain ⟨h1, h2, h3, h4⟩ := hc
      constructor
      · rintro ⟨se, hmem, hle, hlt⟩
        rcases List.mem_cons.1 hmem with rfl | h5
        · have := covers_mem rest se.2 b h4
          omega
        · have h6 := (ih x.2 b h4 r).1 ⟨se, h5, hle, hlt⟩
          omega
      · rintro ⟨ha, hb2⟩
        rcases Nat.lt_or_ge r x.2 with hlt | hge
        · exact ⟨x, List.mem_cons_self x rest, by omega, hlt⟩
        · obtain ⟨se, hmem, hle, hlt⟩ := (ih x.2 b h4 r).2 ⟨hge, hb2⟩
          exact ⟨se, List.mem_cons_of_mem x hmem, hle, hlt⟩

/-- Closed form of the k-th range emitted by the assignment loop. -/
theorem assign_ranges_from_get (n col chunk : Nat) :
    ∀ (cnt assigned k : Nat) (h : k < (assign_ranges_from n col chunk cnt assigned).length),
      (assign_ranges_from n col chunk cnt assigned).get ⟨k, h⟩
        = (col + 1 + (assigned + k) * chunk,
           min n (col + 1 + (assigned + k) * chunk + chunk)) := by
  intro cnt
  induction cnt with
  | zero => intro assigned k h; exact absurd h (by simp [assign_ranges_from])
  | succ m ih =>
      intro assigned k h
      by_cases hs : n ≤ col + 1 + assigned * chunk
      · rw [assign_ranges_from_nil n col chunk (m + 1) assigned hs] at h
        exact absurd h (by simp)
      · have heq : assign_ranges_from n col chunk (m + 1) assigned
            = (col + 1 + assigned * chunk, min n (col + 1 + assigned * chunk + chunk))
              :: assign_ranges_from n col chunk m (assigned + 1) := by
          simp only [assign_ranges_from, if_neg hs]
        cases k with
        | zero =>
            rw [List.get_of_eq heq]
            simp
        | succ k2 =>
            rw [List.get_of_eq heq]
            have hlen : k2 < (assign_ranges_from n col chunk m (assigned + 1)).length := by
              have h2 := h
              rw [heq] at h2
              simpa using h2
            have hstep := ih (assigned + 1) k2 hlen
            simp only [List.get_cons_succ]
            rw [hstep]
            have harith : assigned + 1 + k2 = assigned + (k2 + 1) := by omega
            rw [harith]

/-- A worker slot receives a range exactly when its computed start is
still below n. -/
theorem assign_ranges_from_length (n col chunk : Nat) :
    ∀ (cnt assigned k : Nat), k < cnt →
      (k < (assign_ranges_from n col chunk cnt assigned).length
        ↔ col + 1 + (assigned + k) * chunk < n) := by
  intro cnt
  induction cnt with
  | zero => intro assigned k hk; omega
  | succ m ih =>
      intro assigned k hk
      by_cases hs : n ≤ col + 1 + assigned * chunk
      · rw [assign_ranges_from_nil n col chunk (m + 1) assigned hs]
        simp only [List.length_nil]
        constructor
        · intro h; omega
        · intro h
          exfalso
          have hmono : assigned * chunk ≤ (assigned + k) * chunk :=
            Nat.mul_le_mul_right chunk (by omega)
          omega
      · have heq : assign_ranges_from n col chunk (m + 1) assigned
            = (col + 1 + assigned * chunk, min n (col + 1 + assigned * chunk + chunk))
              :: assign_ranges_from n col chunk m (assigned + 1) := by
          simp only [assign_ranges_from, if_neg hs]
        rw [heq]
        simp only [List.length_cons]
        cases k with
        | zero =>
            simp only [Nat.add_zero]
            constructor
            · intro h2; omega
            · intro h2; omega
        | succ k2 =>
            rw [Nat.succ_lt_succ_iff]
            rw [ih (assigned + 1) k2 (by omega)]
            have harith : assigned + 1 + k2 = assigned + (k2 + 1) := by omega
            rw [harith]

/-- C3: in every column round with pivot column c and a positive number
of remaining rows, the assigned row ranges are the contiguous intervals
of the claimed closed form, a worker slot is skipped exactly once its
computed start reaches n, every range starts strictly after the pivot
row c, distinct ranges are disjoint, and the union of the ranges is
exactly the rows from c + 1 to n. -/
theorem claim_C3 (n c budget active chunk : Nat) (ranges : List (Nat × Nat))
    (hb : 1 ≤ budget) (hrem : 0 < n - c - 1)
    (hact : active = min budget (n - c - 1))
    (hchunk : chunk = (n - c - 1 + active - 1) / active)
    (hranges : ranges = assign_ranges n c chunk active) :
    (∀ (k : Nat) (h : k < ranges.length),
        ranges.get ⟨k, h⟩ = (c + 1 + k * chunk, min n (c + 1 + (k + 1) * chunk))) ∧
    (∀ se, se ∈ ranges → c < se.1) ∧
    (∀ k, k < active → (k < ranges.length ↔ c + 1 + k * chunk < n)) ∧
    (∀ (i j : Nat) (hi : i < ranges.length) (hj : j < ranges.length), i ≠ j →
        ∀ r, ¬((ranges.get ⟨i, hi⟩).1 ≤ r ∧ r < (ranges.get ⟨i, hi⟩).2 ∧
               (ranges.get ⟨j, hj⟩).1 ≤ r ∧ r < (ranges.get ⟨j, hj⟩).2)) ∧
    (∀ r, (∃ se, se ∈ ranges ∧ se.1 ≤ r ∧ r < se.2) ↔ (c + 1 ≤ r ∧ r < n)) := by
  subst hact
  subst hchunk
  subst hranges
  have hcov := assign_ranges_covers n c budget (by omega) (by omega)
  set C := (n - c - 1 + min budget (n - c - 1) - 1) / min budget (n - c - 1) with hC
  refine ⟨?_, ?_, ?_, ?_, ?_⟩
  · intro k h
    have hg := assign_ranges_from_get n c C (min budget (n - c - 1)) 0 k h
    refine hg.trans ?_
    rw [Nat.zero_add]
    exact congrArg₂ Prod.mk rfl
      (congrArg (min n) (by have := Nat.add_mul k 1 C; omega))
  · intro se hmem
    have := covers_mem _ _ _ hcov se hmem
    omega
  · intro k hk
    have hlen := assign_ranges_from_length n c C (min budget (n - c - 1)) 0 k hk
    simpa using hlen
  · intro i j hi hj hij r hcontra
    rcases Nat.lt_trichotomy i j with hlt | heq | hgt
    · have := covers_chain _ _ _ hcov i j hi hj hlt
      omega
    · exact hij heq
    · have := covers_chain _ _ _ hcov j i hj hi hgt
      omega
  · exact covers_union _ _ _ hcov

/-- Witness for C3 at n = 4, c = 0, budget = 2: remaining 3, active 2,
chunk 2, ranges (1,3) and (3,4). -/
theorem claim_C3_witness :
    (∀ (k : Nat) (h : k < (assign_ranges 4 0 2 2).length),
        (assign_ranges 4 0 2 2).get ⟨k, h⟩ = (0 + 1 + k * 2, min 4 (0 + 1 + (k + 1) * 2))) ∧
    (∀ se, se ∈ assign_ranges 4 0 2 2 → 0 < se.1) ∧
    (∀ k, k < 2 → (k < (assign_ranges 4 0 2 2).length ↔ 0 + 1 + k * 2 < 4)) ∧
    (∀ (i j : Nat) (hi : i < (assign_ranges 4 0 2 2).length)
        (hj : j < (assign_ranges 4 0 2 2).length), i ≠ j →
        ∀ r, ¬(((assign_ranges 4 0 2 2).get ⟨i, hi⟩).1 ≤ r ∧
               r < ((assign_ranges 4 0 2 2).get ⟨i, hi⟩).2 ∧
               ((assign_ranges 4 0 2 2).get ⟨j, hj⟩).1 ≤ r ∧
               r < ((assign_ranges 4 0 2 2).get ⟨j, hj⟩).2)) ∧
    (∀ r, (∃ se, se ∈ assign_ranges 4 0 2 2 ∧ se.1 ≤ r ∧ r < se.2) ↔ (0 + 1 ≤ r ∧ r < 4)) :=
  claim_C3 4 0 2 2 2 (assign_ranges 4 0 2 2) (by decide) (by decide) (by decide) (by decide) rfl

/-- The spawn phase records exactly one spawn event per worker of the
budget. -/
theorem countP_spawn_events (b : Nat) : (spawn_events b).countP isSpawnEvent = b := by
  unfold spawn_events
  rw [List.countP_eq_length.2]
  · simp
  · intro e he
    obtain ⟨i, hi, rfl⟩ := List.mem_map.1 he
    rfl

/-- The orchestrator body spawns no worker. -/
theorem countP_spawn_core (width n budget : Nat) (acks : Nat → Int) (data : List ℚ) :
    (parallel_core width n budget acks data).2.countP isSpawnEvent = 0 := by
  rw [List.countP_eq_zero]
  intro e he
  rcases parallel_core_events width n budget acks data e he with h | h
  · cases e <;> simp_all [isRoundEvent, isSpawnEvent]
  · cases e <;> simp_all [isTeardownEvent, isSpawnEvent]

/-- C4: for every matrix with zero rows or with cols different from
rows + 1, both engines fail with InvalidShape, and the parallel engine
fails before any resource allocation: its event trace is empty, so no
region is mapped, no worker is spawned and no data is copied. -/
theorem claim_C4 (m : CppMatrix) (w : Nat) (cpu : Int) (acks : Nat → Int)
    (h : m.rows = 0 ∨ m.cols ≠ m.rows + 1) :
    gaussian_sequential m = .error .InvalidShape ∧
      gaussian_parallel_run m w cpu acks = (.error .InvalidShape, []) := by
  have hv := validate_augmented_invalid m h
  constructor
  · unfold gaussian_sequential
    rw [hv]
  · unfold gaussian_parallel_run
    rw [hv]

/-- Witness for C4 at the 2 x 2 shape of concrete scenario C. -/
theorem claim_C4_witness :
    gaussian_sequential ⟨2, 2, [1, 2, 3, 4]⟩ = .error .InvalidShape ∧
      gaussian_parallel_run ⟨2, 2, [1, 2, 3, 4]⟩ 1 1 zeroAcks = (.error .InvalidShape, []) :=
  claim_C4 ⟨2, 2, [1, 2, 3, 4]⟩ 1 1 zeroAcks (by decide)

/-- C5: for every valid system with at least two rows and a positive
processor count, the number of workers gaussian_parallel spawns is
max_workers when positive and the processor count otherwise, clamped to
at least 1 and at most rows - 1. -/
theorem claim_C5 (m : CppMatrix) (w : Nat) (cpu : Int) (acks : Nat → Int)
    (h2 : 2 ≤ m.rows) (hc : m.cols = m.rows + 1) (hcpu : 1 ≤ cpu) :
    (gaussian_parallel_run m w cpu acks).2.countP isSpawnEvent
      = max 1 (min (if 0 < w then w else cpu.toNat) (m.rows - 1)) := by
  unfold gaussian_parallel_run
  have hv : validate_augmented m = .ok () := by
    unfold validate_augmented
    rw [if_neg (by omega : ¬ m.rows = 0), if_neg (by simp [hc])]
  rw [hv]
  rw [if_neg (by omega : ¬ m.rows < 2)]
  dsimp only
  rw [show Event.MapRegion
        :: spawn_events (process_budget w cpu m.rows)
        ++ (parallel_core m.cols m.rows (process_budget w cpu m.rows) acks m.data).2
        ++ [Event.ReleaseRegion]
      = [Event.MapRegion] ++ spawn_events (process_budget w cpu m.rows)
        ++ ((parallel_core m.cols m.rows (process_budget w cpu m.rows) acks m.data).2
            ++ [Event.ReleaseRegion]) from by simp]
  rw [List.countP_append, List.countP_append, List.countP_append]
  rw [countP_spawn_events, countP_spawn_core]
  simp only [List.countP_cons, List.countP_nil]
  unfold process_budget
  by_cases hw : 0 < w
  · simp [hw, isSpawnEvent]
  · simp [hw, show (0:Int) < cpu from by omega, isSpawnEvent]

/-- Witness for C5 on the predefined system with max_workers 2 and one
processor. -/
theorem claim_C5_witness :
    (gaussian_parallel_run make_predefined_matrix 2 1 zeroAcks).2.countP isSpawnEvent
      = max 1 (min (if 0 < 2 then 2 else (1:Int).toNat) (3 - 1)) :=
  claim_C5 make_predefined_matrix 2 1 zeroAcks (by decide) (by decide) (by decide)

/-- C6: for a fixed valid system with at least two rows, the parallel
engine with max_workers 1 returns the same value as with
max_workers rows - 1: in the exact model both equal the sequential
result elementwise, because the chunking never changes the arithmetic
applied to any row. -/
theorem claim_C6 (m : CppMatrix) (cpu : Int) (h2 : 2 ≤ m.rows) (hc : m.cols = m.rows + 1) :
    gaussian_parallel m 1 cpu = gaussian_parallel m (m.rows - 1) cpu := by
  rw [gaussian_parallel_eq_sequential, gaussian_parallel_eq_sequential]

/-- Witness for C6 on the predefined 3 x 4 system. -/
theorem claim_C6_witness :
    gaussian_parallel make_predefined_matrix 1 1
      = gaussian_parallel make_predefined_matrix 2 1 :=
  claim_C6 make_predefined_matrix 1 (by decide) (by decide)

/-- C7: gaussian_parallel releases the shared memory region on every
exit path: whenever the trace records the region mapping, the final
event of the trace is the guard release, whatever the outcome, be it
success, a singular pivot failure, or a worker failure under any
acknowledgment oracle. -/
theorem claim_C7 (m : CppMatrix) (w : Nat) (cpu : Int) (acks : Nat → Int)
    (hmap : Event.MapRegion ∈ (gaussian_parallel_run m w cpu acks).2) :
    (gaussian_parallel_run m w cpu acks).2.getLast? = some Event.ReleaseRegion := by
  unfold gaussian_parallel_run at hmap ⊢
  cases hv : validate_augmented m with
  | error e =>
      rw [hv] at hmap
      dsimp only at hmap
      cases hmap
  | ok u =>
      rw [hv] at hmap
      dsimp only at hmap ⊢
      by_cases h2 : m.rows < 2
      · rw [if_pos h2] at hmap
        dsimp only at hmap
        cases hmap
      · rw [if_neg h2]
        dsimp only
        exact trace_getLast _ _

/-- Witness for C7 on the predefined system with one worker. -/
theorem claim_C7_witness :
    (gaussian_parallel_run make_predefined_matrix 1 1 zeroAcks).2.getLast?
      = some Event.ReleaseRegion :=
  claim_C7 make_predefined_matrix 1 1 zeroAcks (by decide)

/-- C8: for every valid matrix with rows below 2 the parallel entry
point delegates to the sequential engine, returning its exact result
with an empty event trace, so no worker is spawned and no region is
mapped; on the concrete single-equation system with row [5, 10] both
entry points return the solution [2]. -/
theorem claim_C8 (m : CppMatrix) (w : Nat) (cpu : Int) (acks : Nat → Int)
    (h1 : 1 ≤ m.rows) (h2 : m.rows < 2) (h3 : m.cols = m.rows + 1) :
    gaussian_parallel_run m w cpu acks = (gaussian_sequential m, []) ∧
      gaussian_sequential ⟨1, 2, [5, 10]⟩ = .ok [2] ∧
      gaussian_parallel ⟨1, 2, [5, 10]⟩ w cpu = .ok [2] := by
  refine ⟨parallel_run_delegates m w cpu acks (by omega) h2 h3, by decide, ?_⟩
  rw [gaussian_parallel_eq_sequential]
  decide

/-- Witness for C8 on the degenerate system itself with the default
worker budget. -/
theorem claim_C8_witness :
    gaussian_parallel_run ⟨1, 2, [5, 10]⟩ 0 1 zeroAcks
        = (gaussian_sequential ⟨1, 2, [5, 10]⟩, []) ∧
      gaussian_sequential ⟨1, 2, [5, 10]⟩ = .ok [2] ∧
      gaussian_parallel ⟨1, 2, [5, 10]⟩ 0 1 = .ok [2] :=
  claim_C8 ⟨1, 2, [5, 10]⟩ 0 1 zeroAcks (by decide) (by decide) (by decide)

/-- C9: on the predefined 3 x 4 client matrix both engines succeed with
the solution [2, 3, -1] for every worker budget and every processor
count; in the exact model the computed solutions equal the expected
vector, so each element is within the 1e-6 tolerance of it. -/
theorem claim_C9 (w : Nat) (cpu : Int) :
    gaussian_sequential make_predefined_matrix = .ok predefined_expected ∧
      gaussian_parallel make_predefined_matrix w cpu = .ok predefined_expected ∧
      predefined_expected.length = 3 ∧
      fabs (predefined_expected.getD 0 0 - 2) ≤ kTolerance ∧
      fabs (predefined_expected.getD 1 0 - 3) ≤ kTolerance ∧
      fabs (predefined_expected.getD 2 0 - (-1)) ≤ kTolerance := by
  refine ⟨by decide, ?_, by decide, by decide, by decide, by decide⟩
  rw [gaussian_parallel_eq_sequential]
  decide

/-- Witness for C9 with two workers and four processors. -/
theorem claim_C9_witness :
    gaussian_sequential make_predefined_matrix = .ok predefined_expected ∧
      gaussian_parallel make_predefined_matrix 2 4 = .ok predefined_expected ∧
      predefined_expected.length = 3 ∧
      fabs (predefined_expected.getD 0 0 - 2) ≤ kTolerance ∧
      fabs (predefined_expected.getD 1 0 - 3) ≤ kTolerance ∧
      fabs (predefined_expected.getD 2 0 - (-1)) ≤ kTolerance :=
  claim_C9 2 4

/-- C10: a worker in its Ready loop that receives a Work task whose
start_row is at least its end_row performs no write to the shared
buffer, still acknowledges with status 0, and returns to the Ready
state: the shared matrix is unchanged by such a task. -/
theorem claim_C10 (width : Nat) (task : WorkerTask) (shared : List ℚ)
    (hcmd : task.command ≠ 2) (hrange : task.end_row ≤ task.start_row) :
    worker_step width task shared = (shared, 0, false) := by
  unfold worker_step
  rw [if_neg hcmd]
  unfold run_work
  rw [if_neg (by omega : ¬ task.start_row < task.end_row)]

/-- Witness for C10 on a Work task with an empty row range. -/
theorem claim_C10_witness :
    worker_step 4 ⟨1, 0, 3, 3⟩ [1, 2, 3, 4] = ([1, 2, 3, 4], 0, false) :=
  claim_C10 4 ⟨1, 0, 3, 3⟩ [1, 2, 3, 4] (by decide) (by decide)
